import Mathlib

/-!
Verification of the git-to-databricks synchronizer (`from-git-to-databricks.py`)
against its specification.

Modelling conventions:
* Python strings are modelled as `List Char` (`Str`); Python dicts as
  association lists built only through `dictInsert`, which reproduces dict
  semantics (overwrite in place, append fresh keys, iteration in insertion
  order).
* Fallible operations (file reads, HTTP requests, store persistence) are
  modelled with `Except Unit`; the outcome of the environment (network,
  filesystem) is an explicit parameter of each run.
* Reading the store file uses Python's universal-newline text mode: both
  `\n` and `\r` terminate a line (a `\r\n` pair yields one extra empty
  line in this model, which the loader ignores because an empty line
  contains no `=`).
-/

abbrev Str := List Char

abbrev Store := List (Str × Str)

/-- The characters Python's `str.strip()` removes: exactly the code points
with `str.isspace()` true in CPython, namely 0x09-0x0d, 0x1c-0x1f, the
space 0x20, 0x85, 0xa0, 0x1680, 0x2000-0x200a, 0x2028, 0x2029, 0x202f,
0x205f and 0x3000. -/
def isPySpace (c : Char) : Bool :=
  (0x09 ≤ c.toNat && c.toNat ≤ 0x0d) || c.toNat = 0x20 ||
  (0x1c ≤ c.toNat && c.toNat ≤ 0x1f) || c.toNat = 0x85 || c.toNat = 0xa0 ||
  c.toNat = 0x1680 || (0x2000 ≤ c.toNat && c.toNat ≤ 0x200a) ||
  c.toNat = 0x2028 || c.toNat = 0x2029 || c.toNat = 0x202f ||
  c.toNat = 0x205f || c.toNat = 0x3000

/-- Python `line.strip()`. -/
def strip (s : Str) : Str :=
  ((s.dropWhile isPySpace).reverse.dropWhile isPySpace).reverse

/-- Python `s.split("=", 1)` for a string containing `=`: the part before the
first `=` and everything after it. -/
def splitFirstEq : Str → Str × Str
  | [] => ([], [])
  | c :: rest =>
    if c = '=' then ([], rest)
    else
      let p := splitFirstEq rest
      (c :: p.1, p.2)

/-- Line iteration of a text file in Python's universal-newline mode:
both `\n` and `\r` end a line. -/
def splitLines : Str → List Str
  | [] => [[]]
  | c :: rest =>
    if c = '\n' ∨ c = '\r' then [] :: splitLines rest
    else
      match splitLines rest with
      | [] => [[c]]
      | l :: ls => (c :: l) :: ls

/-- Python dict assignment `d[k] = v`: overwrite in place if the key is
present, append otherwise. -/
def dictInsert : Store → Str → Str → Store
  | [], k, v => [(k, v)]
  | p :: d, k, v => if p.1 = k then (k, v) :: d else p :: dictInsert d k v

/-- Python `d.get(k)`. -/
def dictGet : Store → Str → Option Str
  | [], _ => none
  | p :: d, k => if p.1 = k then some p.2 else dictGet d k

/-- State of `ChecksumTracker`: `old_checksums` loaded from the store file,
`new_checksums` accumulated during the walk. -/
structure ChecksumTracker where
  old_checksums : Store
  new_checksums : Store

/-- One iteration of the loop body of `ChecksumTracker._load`:
`if "=" in line: file_path, checksum = line.strip().split("=", 1);
self.old_checksums[file_path] = checksum`. -/
def loadLine (d : Store) (line : Str) : Store :=
  if '=' ∈ line then
    dictInsert d (splitFirstEq (strip line)).1 (splitFirstEq (strip line)).2
  else d

/-- `ChecksumTracker._load` applied to the content of an existing store file. -/
def loadStore (content : Str) : Store :=
  (splitLines content).foldl loadLine []

/-- `ChecksumTracker.__init__` / `_load`: a missing file yields an empty
`old_checksums`. -/
def ChecksumTracker.load (storeFile : Option Str) : ChecksumTracker :=
  { old_checksums :=
      match storeFile with
      | none => []
      | some content => loadStore content
    new_checksums := [] }

/-- The line `f.write(f"{file_path}={checksum}\n")` writes for one entry. -/
def entryLine (p : Str × Str) : Str := p.1 ++ '=' :: (p.2 ++ ['\n'])

/-- Content of the store file written by `ChecksumTracker.save`. -/
def saveContent (pending : Store) : Str := (pending.map entryLine).flatten

/-- State of the store file after `save` has truncated it (`open(..., "w")`)
and written the first `k` entries: the on-disk content if the process dies
at that point. -/
def saveUpTo (pending : Store) (k : Nat) : Str := saveContent (pending.take k)

/-- `ChecksumTracker.has_changed`: records the fresh checksum into
`new_checksums`, then compares against `old_checksums`
(`return old is None or old != checksum`). -/
def has_changed (t : ChecksumTracker) (relative_path checksum : Str) :
    ChecksumTracker × Bool :=
  let t2 : ChecksumTracker :=
    { t with new_checksums := dictInsert t.new_checksums relative_path checksum }
  match dictGet t.old_checksums relative_path with
  | none => (t2, true)
  | some old => (t2, decide (old ≠ checksum))

/-! ### Basic dictionary lemmas -/

theorem dictGet_dictInsert_self (d : Store) (k v : Str) :
    dictGet (dictInsert d k v) k = some v := by
  induction d with
  | nil => simp [dictInsert, dictGet]
  | cons p d ih =>
    by_cases h : p.1 = k
    · simp [dictInsert, dictGet, h]
    · simp [dictInsert, dictGet, h, ih]

theorem dictGet_dictInsert_ne (d : Store) (k v r : Str) (h : r ≠ k) :
    dictGet (dictInsert d k v) r = dictGet d r := by
  have h2 : k ≠ r := Ne.symm h
  induction d with
  | nil => simp [dictInsert, dictGet, h2]
  | cons p d ih =>
    by_cases hp : p.1 = k
    · simp [dictInsert, dictGet, hp, h2]
    · by_cases hr : p.1 = r <;> simp [dictInsert, dictGet, hp, hr, ih, h]

theorem dictGet_eq_none_iff (d : Store) (k : Str) :
    dictGet d k = none ↔ k ∉ d.map Prod.fst := by
  induction d with
  | nil => simp [dictGet]
  | cons p d ih =>
    by_cases h : p.1 = k
    · simp [dictGet, h]
    · have h2 : k ≠ p.1 := fun hh => h hh.symm
      simp [dictGet, h, ih, h2]

theorem dictInsert_of_fresh (d : Store) (k v : Str) (h : dictGet d k = none) :
    dictInsert d k v = d ++ [(k, v)] := by
  induction d with
  | nil => simp [dictInsert]
  | cons p d ih =>
    by_cases hp : p.1 = k
    · simp [dictGet, hp] at h
    · simp only [dictGet, hp, if_neg hp, ite_false] at h
      simp [dictInsert, hp, ih h]

theorem dictGet_isSome_dictInsert (d : Store) (k v r : Str) :
    (dictGet (dictInsert d k v) r).isSome = true ↔
      (dictGet d r).isSome = true ∨ r = k := by
  by_cases h : r = k
  · subst h
    simp [dictGet_dictInsert_self]
  · simp [dictGet_dictInsert_ne d k v r h, h]

theorem dictInsert_mem (d : Store) (k v : Str) (q : Str × Str)
    (h : q ∈ dictInsert d k v) : q = (k, v) ∨ q ∈ d := by
  induction d with
  | nil => simp [dictInsert] at h; simp [h]
  | cons p d ih =>
    by_cases hp : p.1 = k
    · simp [dictInsert, hp] at h
      rcases h with h | h
      · exact Or.inl h
      · exact Or.inr (List.mem_cons_of_mem _ h)
    · simp [dictInsert, hp] at h
      rcases h with h | h
      · subst h
        exact Or.inr (List.mem_cons_self _ _)
      · rcases ih h with h2 | h2
        · exact Or.inl h2
        · exact Or.inr (List.mem_cons_of_mem _ h2)

theorem dictInsert_keys_nodup (d : Store) (k v : Str)
    (h : (d.map Prod.fst).Nodup) :
    ((dictInsert d k v).map Prod.fst).Nodup := by
  induction d with
  | nil => simp [dictInsert]
  | cons p d ih =>
    simp only [List.map_cons, List.nodup_cons] at h
    by_cases hp : p.1 = k
    · subst hp
      simpa [dictInsert] using h
    · simp only [dictInsert, if_neg hp, List.map_cons, List.nodup_cons]
      constructor
      · intro hmem
        rcases List.mem_map.mp hmem with ⟨q, hq, hq1⟩
        rcases dictInsert_mem d k v q hq with rfl | hq2
        · exact hp hq1.symm
        · exact h.1 (List.mem_map.mpr ⟨q, hq2, hq1⟩)
      · exact ih h.2

/-! ### `has_changed` lemmas -/

theorem has_changed_fst_new (t : ChecksumTracker) (r c : Str) :
    (has_changed t r c).1.new_checksums = dictInsert t.new_checksums r c := by
  unfold has_changed
  rcases dictGet t.old_checksums r with _ | old <;> rfl

theorem has_changed_fst_old (t : ChecksumTracker) (r c : Str) :
    (has_changed t r c).1.old_checksums = t.old_checksums := by
  unfold has_changed
  rcases dictGet t.old_checksums r with _ | old <;> rfl

theorem has_changed_snd_iff (t : ChecksumTracker) (r c : Str) :
    (has_changed t r c).2 = true ↔ dictGet t.old_checksums r ≠ some c := by
  unfold has_changed
  rcases h : dictGet t.old_checksums r with _ | old
  · simp
  · simp only [decide_eq_true_eq]
    constructor
    · intro hne hsome
      exact hne (Option.some.inj hsome)
    · intro hne hold
      exact hne (hold ▸ rfl)

theorem has_changed_snd_false (t : ChecksumTracker) (r c : Str)
    (h : dictGet t.old_checksums r = some c) :
    (has_changed t r c).2 = false := by
  unfold has_changed
  simp [h]

/-- Claim C1: `has_changed` inserts the pair into the pending mapping,
unconditionally overwriting any prior pending entry for that path, and
returns `true` iff the path is absent from the previous mapping or the
stored fingerprint differs from the given one; in particular a path absent
from `previous` always yields `true`. -/
theorem record_overwrites_and_signals_change (t : ChecksumTracker)
    (rel chk : Str) :
    (has_changed t rel chk).1.new_checksums = dictInsert t.new_checksums rel chk ∧
    dictGet (has_changed t rel chk).1.new_checksums rel = some chk ∧
    ((has_changed t rel chk).2 = true ↔
      dictGet t.old_checksums rel = none ∨ dictGet t.old_checksums rel ≠ some chk) ∧
    (dictGet t.old_checksums rel = none → (has_changed t rel chk).2 = true) := by
  refine ⟨has_changed_fst_new t rel chk, ?_, ?_, ?_⟩
  · rw [has_changed_fst_new]
    exact dictGet_dictInsert_self _ _ _
  · rw [has_changed_snd_iff]
    constructor
    · intro h; exact Or.inr h
    · rintro (h | h)
      · rw [h]; simp
      · exact h
  · intro h
    rw [has_changed_snd_iff, h]
    simp

/-- Witness for C1 at a concrete tracker state. -/
theorem record_overwrites_and_signals_change_app :
    dictGet (has_changed ⟨[], []⟩ ['a'] ['1']).1.new_checksums ['a'] = some ['1'] ∧
    (has_changed ⟨[], []⟩ ['a'] ['1']).2 = true :=
  ⟨(record_overwrites_and_signals_change ⟨[], []⟩ ['a'] ['1']).2.1,
   (record_overwrites_and_signals_change ⟨[], []⟩ ['a'] ['1']).2.2.2 rfl⟩

/-! ### Remote writer (`DatabricksUploader.upload_file`) -/

/-- What the environment does when `upload_file` runs: the local read can
raise (`OSError` from `open`), the HTTP request can raise
(`requests.RequestException`), or a response with some status code arrives. -/
inductive UploadEvent where
  | fsReadError
  | networkError
  | httpStatus (code : Nat)
deriving DecidableEq

/-- `DatabricksUploader.upload_file`: `except requests.RequestException`
catches the network error and the `HTTPError` thrown by
`raise_for_status()` (which raises exactly for status codes 400-599) and
returns `False`; an `OSError` from reading the local file is not a
`RequestException` and propagates. -/
def upload_file (ev : UploadEvent) : Except Unit Bool :=
  match ev with
  | .fsReadError => .error ()
  | .networkError => .ok false
  | .httpStatus code => if 400 ≤ code ∧ code < 600 then .ok false else .ok true

/-! ### The main pipeline (`main`) -/

/-- One regular file visited by the walk: its relative path, the outcome of
`ChecksumTracker.get_checksum` on it (the md5 hexdigest, or a read error),
and what the environment does if an upload is attempted. -/
structure FileEntry where
  rel : Str
  digest : Except Unit Str
  upload : UploadEvent

/-- The three aggregate counters of `main`. -/
structure Counters where
  uploaded : Nat
  skipped : Nat
  failed : Nat
deriving DecidableEq

abbrev PipeState := ChecksumTracker × Counters

/-- One iteration of the `for file in ...rglob("*")` loop body of `main`:
compute the checksum (an exception propagates), call `has_changed`, and
either skip or upload (an exception from `upload_file` propagates). -/
def processFile (s : PipeState) (f : FileEntry) : Except Unit PipeState :=
  match f.digest with
  | .error e => .error e
  | .ok checksum =>
    let t := (has_changed s.1 f.rel checksum).1
    if (has_changed s.1 f.rel checksum).2 then
      match upload_file f.upload with
      | .error e => .error e
      | .ok true => .ok (t, { s.2 with uploaded := s.2.uploaded + 1 })
      | .ok false => .ok (t, { s.2 with failed := s.2.failed + 1 })
    else .ok (t, { s.2 with skipped := s.2.skipped + 1 })

/-- The whole walk loop of `main`. -/
def processFiles (s : PipeState) : List FileEntry → Except Unit PipeState
  | [] => .ok s
  | f :: fs =>
    match processFile s f with
    | .error e => .error e
    | .ok s2 => processFiles s2 fs

/-- Environment of one `main` invocation: whether the required environment
variables are present, whether `git_sync` succeeds, the current content of
the `.checksums` file (`none` when absent), the walked files, and whether
`ChecksumTracker.save` completes (`none`) or dies after writing `k`
entries (`some k`). -/
structure RunInput where
  configOk : Bool
  gitSyncOk : Bool
  storeFile : Option Str
  files : List FileEntry
  saveCrash : Option Nat

/-- Observable outcome of one `main` invocation: the process exit code, the
content of the `.checksums` file afterwards, and the three counters when
the walk ran to completion. -/
structure RunOutcome where
  exitCode : Nat
  storeFile : Option Str
  counters : Option Counters

/-- Tracker and counters at the start of the walk. -/
def initState (inp : RunInput) : PipeState :=
  (ChecksumTracker.load inp.storeFile, ⟨0, 0, 0⟩)

/-- `main`: missing configuration exits 1 before touching the store; a
`git_sync` failure exits 1 before touching the store; an exception in the
walk propagates (exit 1, store untouched, no summary); then `save` runs
(a crash there leaves a truncated file and exit 1); finally
`sys.exit(1)` when `failed > 0`, else exit 0. -/
def run (inp : RunInput) : RunOutcome :=
  if inp.configOk then
    if inp.gitSyncOk then
      match processFiles (initState inp) inp.files with
      | .error _ => ⟨1, inp.storeFile, none⟩
      | .ok (t, c) =>
        match inp.saveCrash with
        | some k => ⟨1, some (saveUpTo t.new_checksums k), some c⟩
        | none => ⟨if c.failed > 0 then 1 else 0, some (saveContent t.new_checksums), some c⟩
    else ⟨1, inp.storeFile, none⟩
  else ⟨1, inp.storeFile, none⟩

/-- The second of two consecutive runs over an unchanged working tree: the
same walk, with the store file left by the first run. -/
def secondRun (inp : RunInput) : RunInput :=
  { inp with storeFile := (run inp).storeFile }

/-! ### Claim C4: upload failure collapsing -/

/-- Counterexample to claim C4 as stated: a filesystem read error on the
local file propagates as an exception instead of returning `False`
(`except requests.RequestException` does not catch `OSError`), and a
non-2xx status below 400 (e.g. 304) is not collapsed to failure because
`raise_for_status` raises only for 400-599. -/
theorem upload_not_all_causes_collapsed :
    upload_file .fsReadError = .error () ∧
    upload_file (.httpStatus 304) = .ok true := by
  constructor
  · rfl
  · simp [upload_file]

/-- Claim C4 amended: a network error and an HTTP error status in 400-599
are collapsed to the boolean failure return `False`; a 2xx status returns
`True`; a filesystem read error on the local file propagates as an
exception rather than being collapsed. -/
theorem upload_failure_collapse (code : Nat) :
    upload_file .networkError = .ok false ∧
    (400 ≤ code → code < 600 → upload_file (.httpStatus code) = .ok false) ∧
    (200 ≤ code → code < 300 → upload_file (.httpStatus code) = .ok true) ∧
    upload_file .fsReadError = .error () := by
  refine ⟨rfl, ?_, ?_, rfl⟩
  · intro h1 h2
    simp [upload_file, h1, h2]
  · intro h1 h2
    have : ¬ (400 ≤ code ∧ code < 600) := by omega
    simp [upload_file, this]

/-- Witness for the amended C4 at concrete status codes. -/
theorem upload_failure_collapse_app :
    upload_file (.httpStatus 404) = .ok false ∧
    upload_file (.httpStatus 200) = .ok true :=
  ⟨(upload_failure_collapse 404).2.1 (by norm_num) (by norm_num),
   (upload_failure_collapse 200).2.2.1 (by norm_num) (by norm_num)⟩

/-! ### Claim C2: `save` is not atomic -/

/-- Claim C2 is violated by the code (`save` opens the destination with
mode `"w"`, truncating it in place, and then writes entry by entry): a run
interrupted during persistence can leave the store file empty, which is
neither the complete pre-run store nor the complete post-run store. -/
theorem save_interruption_leaves_truncated_store :
    (run { configOk := true, gitSyncOk := true,
           storeFile := some ['a', '=', '1', '\n'],
           files := [⟨['a'], .ok ['2'], .httpStatus 200⟩],
           saveCrash := some 0 }).storeFile = some [] ∧
    some ([] : Str) ≠ some ['a', '=', '1', '\n'] ∧
    some ([] : Str) ≠ some (saveContent [(['a'], ['2'])]) := by
  refine ⟨?_, by decide, by decide⟩
  rfl

/-! ### Walk-loop lemmas -/

theorem processFile_inv (s : PipeState) (f : FileEntry) (s2 : PipeState)
    (h : processFile s f = .ok s2) :
    ∃ chk, f.digest = .ok chk ∧ s2.1 = (has_changed s.1 f.rel chk).1 ∧
      (s2.2 = { s.2 with uploaded := s.2.uploaded + 1 } ∨
       s2.2 = { s.2 with skipped := s.2.skipped + 1 } ∨
       s2.2 = { s.2 with failed := s.2.failed + 1 }) := by
  cases hd : f.digest with
  | error e => simp [processFile, hd] at h
  | ok chk =>
    refine ⟨chk, rfl, ?_⟩
    simp only [processFile, hd] at h
    cases hch : (has_changed s.1 f.rel chk).2 with
    | false =>
      rw [hch] at h
      simp only [Bool.false_eq_true, if_false] at h
      cases h
      exact ⟨rfl, Or.inr (Or.inl rfl)⟩
    | true =>
      rw [hch] at h
      simp only [if_true] at h
      cases hu : upload_file f.upload with
      | error e => rw [hu] at h; cases h
      | ok b =>
        rw [hu] at h
        cases b
        · cases h; exact ⟨rfl, Or.inr (Or.inr rfl)⟩
        · cases h; exact ⟨rfl, Or.inl rfl⟩

theorem processFiles_append_ok (xs ys : List FileEntry) (s s2 : PipeState)
    (h : processFiles s (xs ++ ys) = .ok s2) :
    ∃ s1, processFiles s xs = .ok s1 ∧ processFiles s1 ys = .ok s2 := by
  induction xs generalizing s with
  | nil => exact ⟨s, rfl, h⟩
  | cons f fs ih =>
    simp only [List.cons_append, processFiles] at h ⊢
    cases hf : processFile s f with
    | error e => rw [hf] at h; cases h
    | ok s0 => rw [hf] at h; exact ih s0 h

theorem processFiles_of_append (xs ys : List FileEntry) (s s1 : PipeState)
    (h : processFiles s xs = .ok s1) :
    processFiles s (xs ++ ys) = processFiles s1 ys := by
  induction xs generalizing s with
  | nil =>
    simp only [processFiles] at h
    cases h
    rfl
  | cons f fs ih =>
    simp only [List.cons_append, processFiles] at h ⊢
    cases hf : processFile s f with
    | error e => rw [hf] at h; cases h
    | ok s0 => rw [hf] at h; exact ih s0 h

theorem processFiles_step_ok (f : FileEntry) (fs : List FileEntry) (s s2 : PipeState)
    (h : processFiles s (f :: fs) = .ok s2) :
    ∃ s1, processFile s f = .ok s1 ∧ processFiles s1 fs = .ok s2 := by
  simp only [processFiles] at h
  cases hf : processFile s f with
  | error e => rw [hf] at h; cases h
  | ok s0 => rw [hf] at h; exact ⟨s0, rfl, h⟩

theorem processFiles_counter_sum (fs : List FileEntry) (s s2 : PipeState)
    (h : processFiles s fs = .ok s2) :
    s2.2.uploaded + s2.2.skipped + s2.2.failed =
      s.2.uploaded + s.2.skipped + s.2.failed + fs.length := by
  induction fs generalizing s with
  | nil =>
    simp only [processFiles] at h
    cases h
    simp
  | cons f fs ih =>
    obtain ⟨s1, hf, hrest⟩ := processFiles_step_ok f fs s s2 h
    have hsum := ih s1 hrest
    obtain ⟨chk, _, _, hc | hc | hc⟩ := processFile_inv s f s1 hf <;>
      rw [hsum, hc] <;> simp [List.length_cons] <;> omega

theorem processFiles_failed_mono (fs : List FileEntry) (s s2 : PipeState)
    (h : processFiles s fs = .ok s2) : s.2.failed ≤ s2.2.failed := by
  induction fs generalizing s with
  | nil =>
    simp only [processFiles] at h
    cases h
    exact le_refl _
  | cons f fs ih =>
    obtain ⟨s1, hf, hrest⟩ := processFiles_step_ok f fs s s2 h
    have hle := ih s1 hrest
    obtain ⟨chk, _, _, hc | hc | hc⟩ := processFile_inv s f s1 hf <;>
      rw [hc] at hle <;> simp at hle <;> omega

theorem processFiles_old_eq (fs : List FileEntry) (s s2 : PipeState)
    (h : processFiles s fs = .ok s2) :
    s2.1.old_checksums = s.1.old_checksums := by
  induction fs generalizing s with
  | nil =>
    simp only [processFiles] at h
    cases h
    rfl
  | cons f fs ih =>
    obtain ⟨s1, hf, hrest⟩ := processFiles_step_ok f fs s s2 h
    obtain ⟨chk, _, hnew, _⟩ := processFile_inv s f s1 hf
    rw [ih s1 hrest, hnew, has_changed_fst_old]

theorem processFiles_get_preserved (fs : List FileEntry) (s s2 : PipeState) (r : Str)
    (hr : r ∉ fs.map FileEntry.rel) (h : processFiles s fs = .ok s2) :
    dictGet s2.1.new_checksums r = dictGet s.1.new_checksums r := by
  induction fs generalizing s with
  | nil =>
    simp only [processFiles] at h
    cases h
    rfl
  | cons f fs ih =>
    simp only [List.map_cons, List.mem_cons, not_or] at hr
    obtain ⟨s1, hf, hrest⟩ := processFiles_step_ok f fs s s2 h
    obtain ⟨chk, _, hnew, _⟩ := processFile_inv s f s1 hf
    rw [ih s1 hr.2 hrest, hnew, has_changed_fst_new,
      dictGet_dictInsert_ne _ _ _ _ hr.1]

theorem processFiles_get_isSome (fs : List FileEntry) (s s2 : PipeState) (r : Str)
    (h : processFiles s fs = .ok s2) :
    (dictGet s2.1.new_checksums r).isSome = true ↔
      (dictGet s.1.new_checksums r).isSome = true ∨ r ∈ fs.map FileEntry.rel := by
  induction fs generalizing s with
  | nil =>
    simp only [processFiles] at h
    cases h
    simp
  | cons f fs ih =>
    obtain ⟨s1, hf, hrest⟩ := processFiles_step_ok f fs s s2 h
    obtain ⟨chk, _, hnew, _⟩ := processFile_inv s f s1 hf
    rw [ih s1 hrest, hnew, has_changed_fst_new, dictGet_isSome_dictInsert]
    simp only [List.map_cons, List.mem_cons]
    tauto

theorem processFiles_entries (fs : List FileEntry) (s s2 : PipeState)
    (h : processFiles s fs = .ok s2) (p : Str × Str)
    (hp : p ∈ s2.1.new_checksums) :
    p ∈ s.1.new_checksums ∨ ∃ f ∈ fs, p.1 = f.rel ∧ f.digest = .ok p.2 := by
  induction fs generalizing s with
  | nil =>
    simp only [processFiles] at h
    cases h
    exact Or.inl hp
  | cons f fs ih =>
    obtain ⟨s1, hf, hrest⟩ := processFiles_step_ok f fs s s2 h
    obtain ⟨chk, hd, hnew, _⟩ := processFile_inv s f s1 hf
    rcases ih s1 hrest with hin | ⟨g, hg, hgp⟩
    · rw [hnew, has_changed_fst_new] at hin
      rcases dictInsert_mem _ _ _ _ hin with rfl | hin2
      · exact Or.inr ⟨f, List.mem_cons_self _ _, rfl, hd⟩
      · exact Or.inl hin2
    · exact Or.inr ⟨g, List.mem_cons_of_mem _ hg, hgp⟩

theorem processFiles_keys_nodup (fs : List FileEntry) (s s2 : PipeState)
    (h : processFiles s fs = .ok s2)
    (hnd : (s.1.new_checksums.map Prod.fst).Nodup) :
    (s2.1.new_checksums.map Prod.fst).Nodup := by
  induction fs generalizing s with
  | nil =>
    simp only [processFiles] at h
    cases h
    exact hnd
  | cons f fs ih =>
    obtain ⟨s1, hf, hrest⟩ := processFiles_step_ok f fs s s2 h
    obtain ⟨chk, _, hnew, _⟩ := processFile_inv s f s1 hf
    refine ih s1 hrest ?_
    rw [hnew, has_changed_fst_new]
    exact dictInsert_keys_nodup _ _ _ hnd

theorem upload_file_ok_of_not_fsReadError (ev : UploadEvent)
    (h : ev ≠ UploadEvent.fsReadError) : ∃ b, upload_file ev = .ok b := by
  cases ev with
  | fsReadError => exact absurd rfl h
  | networkError => exact ⟨false, rfl⟩
  | httpStatus code =>
    by_cases hc : 400 ≤ code ∧ code < 600
    · exact ⟨false, by simp [upload_file, hc]⟩
    · exact ⟨true, by simp [upload_file, hc]⟩

theorem processFile_total (s : PipeState) (f : FileEntry) (chk : Str)
    (hd : f.digest = .ok chk) (hu : f.upload ≠ UploadEvent.fsReadError) :
    ∃ s1, processFile s f = .ok s1 := by
  obtain ⟨b, hb⟩ := upload_file_ok_of_not_fsReadError f.upload hu
  cases hch : (has_changed s.1 f.rel chk).2 with
  | false =>
    refine ⟨((has_changed s.1 f.rel chk).1,
      { s.2 with skipped := s.2.skipped + 1 }), ?_⟩
    simp only [processFile, hd, hch, Bool.false_eq_true, if_false]
  | true =>
    cases b with
    | false =>
      refine ⟨((has_changed s.1 f.rel chk).1,
        { s.2 with failed := s.2.failed + 1 }), ?_⟩
      simp only [processFile, hd, hch, if_true, hb]
    | true =>
      refine ⟨((has_changed s.1 f.rel chk).1,
        { s.2 with uploaded := s.2.uploaded + 1 }), ?_⟩
      simp only [processFile, hd, hch, if_true, hb]

theorem processFiles_total (fs : List FileEntry) (s : PipeState)
    (hd : ∀ f ∈ fs, ∃ chk, f.digest = .ok chk)
    (hu : ∀ f ∈ fs, f.upload ≠ UploadEvent.fsReadError) :
    ∃ s2, processFiles s fs = .ok s2 := by
  induction fs generalizing s with
  | nil => exact ⟨s, rfl⟩
  | cons f fs ih =>
    obtain ⟨chk, hchk⟩ := hd f (List.mem_cons_self _ _)
    obtain ⟨s1, hs1⟩ :=
      processFile_total s f chk hchk (hu f (List.mem_cons_self _ _))
    obtain ⟨s2, hs2⟩ := ih s1 (fun g hg => hd g (List.mem_cons_of_mem _ hg))
      (fun g hg => hu g (List.mem_cons_of_mem _ hg))
    exact ⟨s2, by simp only [processFiles, hs1, hs2]⟩

theorem processFiles_all_unchanged (fs : List FileEntry)
    (t : ChecksumTracker) (c : Counters)
    (hsk : ∀ f ∈ fs, ∃ chk, f.digest = .ok chk ∧
      dictGet t.old_checksums f.rel = some chk) :
    ∃ t2, processFiles (t, c) fs =
      .ok (t2, ⟨c.uploaded, c.skipped + fs.length, c.failed⟩) := by
  induction fs generalizing t c with
  | nil => exact ⟨t, by simp [processFiles]⟩
  | cons f fs ih =>
    obtain ⟨chk, hd, hold⟩ := hsk f (List.mem_cons_self _ _)
    have hstep : processFile (t, c) f =
        .ok ((has_changed t f.rel chk).1, { c with skipped := c.skipped + 1 }) := by
      simp only [processFile, hd, has_changed_snd_false t f.rel chk hold,
        Bool.false_eq_true, if_false]
    have hrest : ∀ g ∈ fs, ∃ chk2, g.digest = .ok chk2 ∧
        dictGet (has_changed t f.rel chk).1.old_checksums g.rel = some chk2 := by
      intro g hg
      rw [has_changed_fst_old]
      exact hsk g (List.mem_cons_of_mem _ hg)
    obtain ⟨t2, ht2⟩ :=
      ih (has_changed t f.rel chk).1 { c with skipped := c.skipped + 1 } hrest
    refine ⟨t2, ?_⟩
    simp only [processFiles, hstep, ht2, List.length_cons]
    have : c.skipped + 1 + fs.length = c.skipped + (fs.length + 1) := by omega
    rw [this]

/-! ### Claim C3: per-file read errors -/

/-- Counterexample to claim C3 as stated: the walk loop of `main` has no
per-file exception handler, so a read/fingerprint error on the first file
aborts the walk (the loop does not continue to the second file and nothing
is counted in `failed`); the run exits via an uncaught exception with the
store untouched and no counters reported. -/
theorem read_error_aborts_walk :
    processFiles (⟨[], []⟩, ⟨0, 0, 0⟩)
      [⟨['a'], .error (), .httpStatus 200⟩,
       ⟨['b'], .ok ['0'], .httpStatus 200⟩] = .error () ∧
    (run { configOk := true, gitSyncOk := true, storeFile := none,
           files := [⟨['a'], .error (), .httpStatus 200⟩,
                     ⟨['b'], .ok ['0'], .httpStatus 200⟩],
           saveCrash := none }).counters = none := by
  refine ⟨?_, ?_⟩ <;> rfl

/-- Claim C3 amended: a read/fingerprint error on a visited file propagates
as an uncaught exception: the walk aborts at that file instead of
continuing, nothing is added to the `failed` counter (no summary is
reported at all), no fingerprint is persisted for any path, and the store
file is left untouched. -/
theorem read_error_propagates (inp : RunInput) (pre post : List FileEntry)
    (f : FileEntry) (s1 : PipeState)
    (hc : inp.configOk = true) (hg : inp.gitSyncOk = true)
    (hfiles : inp.files = pre ++ f :: post)
    (hpre : processFiles (initState inp) pre = .ok s1)
    (herr : f.digest = .error ()) :
    (run inp).exitCode = 1 ∧ (run inp).storeFile = inp.storeFile ∧
      (run inp).counters = none := by
  have hall : processFiles (initState inp) inp.files = .error () := by
    rw [hfiles, processFiles_of_append pre (f :: post) _ s1 hpre]
    simp only [processFiles, processFile, herr]
  have hrun : run inp = ⟨1, inp.storeFile, none⟩ := by
    simp only [run, hc, hg, hall, if_true]
  rw [hrun]
  exact ⟨rfl, rfl, rfl⟩

/-- Witness for the amended C3 at a concrete run. -/
theorem read_error_propagates_app :
    (run { configOk := true, gitSyncOk := true, storeFile := none,
           files := [⟨['b'], .ok ['0'], .httpStatus 200⟩,
                     ⟨['a'], .error (), .httpStatus 200⟩],
           saveCrash := none }).exitCode = 1 ∧
    (run { configOk := true, gitSyncOk := true, storeFile := none,
           files := [⟨['b'], .ok ['0'], .httpStatus 200⟩,
                     ⟨['a'], .error (), .httpStatus 200⟩],
           saveCrash := none }).storeFile = none :=
  ⟨(read_error_propagates
      { configOk := true, gitSyncOk := true, storeFile := none,
        files := [⟨['b'], .ok ['0'], .httpStatus 200⟩,
                  ⟨['a'], .error (), .httpStatus 200⟩],
        saveCrash := none }
      [⟨['b'], .ok ['0'], .httpStatus 200⟩] []
      ⟨['a'], .error (), .httpStatus 200⟩ (⟨[], [(['b'], ['0'])]⟩, ⟨1, 0, 0⟩)
      rfl rfl rfl rfl rfl).1,
   (read_error_propagates
      { configOk := true, gitSyncOk := true, storeFile := none,
        files := [⟨['b'], .ok ['0'], .httpStatus 200⟩,
                  ⟨['a'], .error (), .httpStatus 200⟩],
        saveCrash := none }
      [⟨['b'], .ok ['0'], .httpStatus 200⟩] []
      ⟨['a'], .error (), .httpStatus 200⟩ (⟨[], [(['b'], ['0'])]⟩, ⟨1, 0, 0⟩)
      rfl rfl rfl rfl rfl).2.1⟩

/-! ### Claim C5: counter partition -/

/-- Claim C5: whenever a run reports its aggregate counters (the walk ran to
completion), `uploaded + skipped + failed` equals the number of regular
files visited in the walk. -/
theorem counters_sum_to_visited (inp : RunInput) (c : Counters)
    (h : (run inp).counters = some c) :
    c.uploaded + c.skipped + c.failed = inp.files.length := by
  by_cases hc : inp.configOk
  · by_cases hg : inp.gitSyncOk
    · cases hpf : processFiles (initState inp) inp.files with
      | error e => simp [run, hc, hg, hpf] at h
      | ok s2 =>
        obtain ⟨t2, c2⟩ := s2
        have hsum := processFiles_counter_sum inp.files _ _ hpf
        have hc2 : c2 = c := by
          cases hcr : inp.saveCrash with
          | none =>
            simp only [run, hc, hg, hpf, hcr, if_true] at h
            exact Option.some.inj h
          | some k =>
            simp only [run, hc, hg, hpf, hcr, if_true] at h
            exact Option.some.inj h
        rw [hc2] at hsum
        simpa [initState] using hsum
    · simp [run, hc, hg] at h
  · simp [run, hc] at h

/-- Witness for C5 at a concrete run (one uploaded, one failed, two files). -/
theorem counters_sum_to_visited_app :
    (run { configOk := true, gitSyncOk := true, storeFile := none,
           files := [⟨['a'], .ok ['1'], .httpStatus 200⟩,
                     ⟨['b'], .ok ['2'], .networkError⟩],
           saveCrash := none }).counters = some ⟨1, 0, 1⟩ ∧
    1 + 0 + 1 = 2 :=
  ⟨rfl,
   counters_sum_to_visited
     { configOk := true, gitSyncOk := true, storeFile := none,
       files := [⟨['a'], .ok ['1'], .httpStatus 200⟩,
                 ⟨['b'], .ok ['2'], .networkError⟩],
       saveCrash := none } ⟨1, 0, 1⟩ rfl⟩

/-! ### Claim C8: record happens regardless of upload outcome -/

/-- Claim C8: a visited file classified as changed has its just-computed
fingerprint recorded into the pending mapping even when the upload returns
failure, the failed upload increments the `failed` counter, and (the path
being visited only there) the fingerprint is still in the final pending
mapping that `save` persists. -/
theorem failed_upload_still_recorded (s0 : PipeState) (pre post : List FileEntry)
    (f : FileEntry) (chk : Str) (s1 : PipeState) (t : ChecksumTracker) (c : Counters)
    (hpre : processFiles s0 pre = .ok s1)
    (hd : f.digest = .ok chk)
    (hch : (has_changed s1.1 f.rel chk).2 = true)
    (hup : upload_file f.upload = .ok false)
    (hall : processFiles s0 (pre ++ f :: post) = .ok (t, c))
    (hlast : f.rel ∉ post.map FileEntry.rel) :
    dictGet t.new_checksums f.rel = some chk ∧ s1.2.failed + 1 ≤ c.failed := by
  rw [processFiles_of_append pre (f :: post) s0 s1 hpre] at hall
  have hstep : processFile s1 f =
      .ok ((has_changed s1.1 f.rel chk).1, { s1.2 with failed := s1.2.failed + 1 }) := by
    simp only [processFile, hd, hch, if_true, hup]
  obtain ⟨s2, hs2, hrest⟩ := processFiles_step_ok f post s1 (t, c) hall
  rw [hstep] at hs2
  have hs2e := Except.ok.inj hs2
  subst hs2e
  constructor
  · have hpres := processFiles_get_preserved post _ (t, c) f.rel hlast hrest
    rw [hpres]
    simp only [has_changed_fst_new]
    exact dictGet_dictInsert_self _ _ _
  · have hmono := processFiles_failed_mono post _ (t, c) hrest
    simpa using hmono

/-- Witness for C8 at a concrete run: one changed file whose upload fails. -/
theorem failed_upload_still_recorded_app :
    dictGet [(['a'], ['1'])] ['a'] = some ['1'] ∧ 0 + 1 ≤ 1 :=
  failed_upload_still_recorded (⟨[], []⟩, ⟨0, 0, 0⟩) [] []
    ⟨['a'], .ok ['1'], .networkError⟩ ['1'] (⟨[], []⟩, ⟨0, 0, 0⟩)
    ⟨[], [(['a'], ['1'])]⟩ ⟨0, 0, 1⟩ rfl rfl rfl rfl rfl (by simp)

/-! ### Claim C9: process exit contract -/

/-- Counterexample to claim C9 as stated: a run in which configuration is
present, git sync succeeds and no upload fails (the single upload
succeeds), but `save` dies mid-write: the process exits non-zero, so
"exit 0 iff no upload failed, refresh succeeded, configuration present"
is false in the right-to-left direction. -/
theorem exit_nonzero_despite_no_failed_upload :
    (run { configOk := true, gitSyncOk := true, storeFile := none,
           files := [⟨['a'], .ok ['1'], .httpStatus 200⟩],
           saveCrash := some 0 }).exitCode = 1 ∧
    (run { configOk := true, gitSyncOk := true, storeFile := none,
           files := [⟨['a'], .ok ['1'], .httpStatus 200⟩],
           saveCrash := some 0 }).counters = some ⟨1, 0, 0⟩ := by
  refine ⟨?_, ?_⟩ <;> rfl

/-- Claim C9 amended: the run exits with code 0 iff configuration is
present, the pre-sync refresh succeeded, the walk ran to completion with
no per-file exception, persistence completed, and no upload failed; any of
these failing yields a non-zero exit. -/
theorem exit_code_contract (inp : RunInput) :
    (run inp).exitCode = 0 ↔
      inp.configOk = true ∧ inp.gitSyncOk = true ∧ inp.saveCrash = none ∧
      ∃ t c, processFiles (initState inp) inp.files = .ok (t, c) ∧
        c.failed = 0 := by
  constructor
  · intro h
    by_cases hc : inp.configOk
    · by_cases hg : inp.gitSyncOk
      · cases hpf : processFiles (initState inp) inp.files with
        | error e => simp [run, hc, hg, hpf] at h
        | ok s2 =>
          obtain ⟨t, c⟩ := s2
          cases hcr : inp.saveCrash with
          | some k => simp [run, hc, hg, hpf, hcr] at h
          | none =>
            refine ⟨by simp [hc], by simp [hg], rfl, t, c, rfl, ?_⟩
            by_cases hf : c.failed > 0
            · simp [run, hc, hg, hpf, hcr, hf] at h
            · omega
      · simp [run, hc, hg] at h
    · simp [run, hc] at h
  · rintro ⟨hc, hg, hcr, t, c, hpf, hf⟩
    simp [run, hc, hg, hpf, hcr, hf]

/-- Witness for the amended C9: a fully successful run exits 0. -/
theorem exit_code_contract_app :
    (run { configOk := true, gitSyncOk := true, storeFile := none,
           files := [⟨['a'], .ok ['1'], .httpStatus 200⟩],
           saveCrash := none }).exitCode = 0 :=
  (exit_code_contract
    { configOk := true, gitSyncOk := true, storeFile := none,
      files := [⟨['a'], .ok ['1'], .httpStatus 200⟩],
      saveCrash := none }).mpr
    ⟨rfl, rfl, rfl, ⟨[], [(['a'], ['1'])]⟩, ⟨1, 0, 0⟩, rfl, rfl⟩

/-! ### Claim C6: persisted store covers exactly the walk -/

/-- Claim C6: after a successful run (configuration present, git sync ok,
walk completed, persistence completed) the store file holds exactly the
serialization of the pending mapping, and the pending mapping's domain is
exactly the set of relative paths visited by the walk; a path present only
in the previous mapping does not appear. -/
theorem persisted_store_matches_walk (inp : RunInput) (t : ChecksumTracker)
    (c : Counters)
    (hc : inp.configOk = true) (hg : inp.gitSyncOk = true)
    (hcr : inp.saveCrash = none)
    (hpf : processFiles (initState inp) inp.files = .ok (t, c)) :
    (run inp).storeFile = some (saveContent t.new_checksums) ∧
    (∀ p, (dictGet t.new_checksums p).isSome = true ↔
      p ∈ inp.files.map FileEntry.rel) ∧
    (∀ p, p ∉ inp.files.map FileEntry.rel → dictGet t.new_checksums p = none) := by
  have hdom : ∀ p, (dictGet t.new_checksums p).isSome = true ↔
      p ∈ inp.files.map FileEntry.rel := by
    intro p
    have h := processFiles_get_isSome inp.files (initState inp) (t, c) p hpf
    simpa [initState, ChecksumTracker.load, dictGet] using h
  refine ⟨?_, hdom, ?_⟩
  · simp [run, hc, hg, hpf, hcr]
  · intro p hp
    have h2 := (hdom p).not.mpr hp  -- wait direction
    rcases hq : dictGet t.new_checksums p with _ | v
    · rfl
    · exact absurd ((hdom p).mp (by simp [hq])) hp

/-- Witness for C6: a stale path `c` from the previous store is dropped,
the persisted content is the pending mapping's serialization. -/
theorem persisted_store_matches_walk_app :
    (run { configOk := true, gitSyncOk := true,
           storeFile := some ['c', '=', '9', '\n'],
           files := [⟨['a'], .ok ['1'], .httpStatus 200⟩],
           saveCrash := none }).storeFile =
      some (saveContent [(['a'], ['1'])]) ∧
    dictGet [(['a'], ['1'])] ['c'] = none :=
  ⟨(persisted_store_matches_walk
      { configOk := true, gitSyncOk := true,
        storeFile := some ['c', '=', '9', '\n'],
        files := [⟨['a'], .ok ['1'], .httpStatus 200⟩], saveCrash := none }
      ⟨[(['c'], ['9'])], [(['a'], ['1'])]⟩ ⟨1, 0, 0⟩ rfl rfl rfl rfl).1,
   (persisted_store_matches_walk
      { configOk := true, gitSyncOk := true,
        storeFile := some ['c', '=', '9', '\n'],
        files := [⟨['a'], .ok ['1'], .httpStatus 200⟩], saveCrash := none }
      ⟨[(['c'], ['9'])], [(['a'], ['1'])]⟩ ⟨1, 0, 0⟩ rfl rfl rfl rfl).2.2
     ['c'] (by decide)⟩

/-! ### Round-trip of `save` and `_load` -/

/-- A relative path the store file format can represent faithfully:
non-empty, no `=` (the first `=` of a line is the key/value delimiter), no
line-break character (`\n` or `\r`, both of which end a line when the file
is read back in text mode), and no leading or trailing whitespace (which
`line.strip()` would remove). -/
abbrev validPath (s : Str) : Prop :=
  s ≠ [] ∧ '=' ∉ s ∧ '\n' ∉ s ∧ '\r' ∉ s ∧
  isPySpace (s.headD '=') = false ∧ isPySpace (s.getLastD '=') = false

/-- A fingerprint value the store file format can represent faithfully:
no line-break character and no surrounding whitespace. (A `=` inside the
value is fine: only the first `=` of a line delimits.) -/
abbrev validChk (s : Str) : Prop :=
  '\n' ∉ s ∧ '\r' ∉ s ∧
  isPySpace (s.headD '=') = false ∧ isPySpace (s.getLastD '=') = false

theorem dropWhile_id_of_headD (p : Char → Bool) (s : Str)
    (h : p (s.headD '=') = false) : s.dropWhile p = s := by
  cases s with
  | nil => rfl
  | cons c rest =>
    rw [List.headD_cons] at h
    rw [List.dropWhile_cons, h]
    simp

theorem headD_reverse (s : Str) (d : Char) :
    s.reverse.headD d = s.getLastD d := by
  rw [List.headD_eq_head?, List.head?_reverse, List.getLastD_eq_getLast?]

theorem strip_eq_self (s : Str) (h1 : isPySpace (s.headD '=') = false)
    (h2 : isPySpace (s.getLastD '=') = false) : strip s = s := by
  unfold strip
  rw [dropWhile_id_of_headD _ _ h1,
    dropWhile_id_of_headD _ _ (by rw [headD_reverse]; exact h2),
    List.reverse_reverse]

theorem headD_append (xs ys : Str) (d : Char) (h : xs ≠ []) :
    (xs ++ ys).headD d = xs.headD d := by
  cases xs with
  | nil => exact absurd rfl h
  | cons c rest => simp

theorem getLastD_append_cons (xs v : Str) (c d : Char) :
    (xs ++ c :: v).getLastD d = (c :: v).getLastD d := by
  rw [List.getLastD_eq_getLast?, List.getLastD_eq_getLast?, List.getLast?_append]
  rw [List.getLast?_eq_getLast (c :: v) (by simp)]
  rfl

theorem getLastD_irrel (v : Str) (c d : Char) (h : v ≠ []) :
    v.getLastD c = v.getLastD d := by
  rw [List.getLastD_eq_getLast?, List.getLastD_eq_getLast?,
    List.getLast?_eq_getLast v h]
  rfl

/-- The line written for a well-formed entry survives `strip` unchanged. -/
theorem strip_entry (k v : Str) (hk : validPath k) (hv : validChk v) :
    strip (k ++ '=' :: v) = k ++ '=' :: v := by
  obtain ⟨hne, _, _, _, hhead, _⟩ := hk
  obtain ⟨_, _, _, hlast⟩ := hv
  refine strip_eq_self _ ?_ ?_
  · rw [headD_append _ _ _ hne]
    exact hhead
  · rw [getLastD_append_cons, List.getLastD_cons]
    cases hvv : v with
    | nil => decide
    | cons c2 r2 =>
      rw [getLastD_irrel (c2 :: r2) '=' '=' (by simp)]
      rw [hvv] at hlast
      rw [← hvv] at hlast ⊢
      rw [getLastD_irrel v _ '=' (by rw [hvv]; simp)]
      exact hlast

theorem splitFirstEq_entry (k v : Str) (h : '=' ∉ k) :
    splitFirstEq (k ++ '=' :: v) = (k, v) := by
  induction k with
  | nil => simp [splitFirstEq]
  | cons c k ih =>
    simp only [List.mem_cons, not_or] at h
    have hc : ¬ c = '=' := fun hh => h.1 hh.symm
    simp [splitFirstEq, hc, ih h.2]

/-- `loadLine` on the serialized line of a well-formed entry performs the
dict assignment of `_load`. -/
theorem loadLine_entry (d : Store) (k v : Str) (hk : validPath k)
    (hv : validChk v) :
    loadLine d (k ++ '=' :: v) = dictInsert d k v := by
  have hmem : '=' ∈ k ++ '=' :: v :=
    List.mem_append.mpr (Or.inr (List.mem_cons_self _ _))
  rw [loadLine, if_pos hmem, strip_entry k v hk hv,
    splitFirstEq_entry k v hk.2.1]

theorem loadLine_nil (d : Store) : loadLine d [] = d := by
  simp [loadLine]

theorem splitLines_append (l s : Str) (h1 : '\n' ∉ l) (h2 : '\r' ∉ l) :
    splitLines (l ++ '\n' :: s) = l :: splitLines s := by
  induction l with
  | nil => simp [splitLines]
  | cons c l ih =>
    simp only [List.mem_cons, not_or] at h1 h2
    have hc : ¬ (c = '\n' ∨ c = '\r') := by
      rintro (rfl | rfl)
      exacts [h1.1 rfl, h2.1 rfl]
    rw [List.cons_append, splitLines, if_neg hc, ih h1.2 h2.2]

theorem splitLines_saveContent (pending : Store)
    (hvalid : ∀ p ∈ pending, validPath p.1 ∧ validChk p.2) :
    splitLines (saveContent pending) =
      (pending.map fun p => p.1 ++ '=' :: p.2) ++ [[]] := by
  induction pending with
  | nil => rfl
  | cons q rest ih =>
    obtain ⟨⟨_, _, hknl, hkcr, _, _⟩, hvnl, hvcr, _, _⟩ :=
      hvalid q (List.mem_cons_self _ _)
    have hnl : '\n' ∉ q.1 ++ '=' :: q.2 := by
      simp only [List.mem_append, List.mem_cons, not_or]
      exact ⟨hknl, by decide, hvnl⟩
    have hcr : '\r' ∉ q.1 ++ '=' :: q.2 := by
      simp only [List.mem_append, List.mem_cons, not_or]
      exact ⟨hkcr, by decide, hvcr⟩
    have hsc : saveContent (q :: rest) =
        (q.1 ++ '=' :: q.2) ++ '\n' :: saveContent rest := by
      simp [saveContent, entryLine, List.append_assoc]
    rw [hsc, splitLines_append _ _ hnl hcr,
      ih (fun p hp => hvalid p (List.mem_cons_of_mem _ hp))]
    rfl

theorem dictGet_append (d e : Store) (r : Str) :
    dictGet (d ++ e) r =
      match dictGet d r with
      | some v => some v
      | none => dictGet e r := by
  induction d with
  | nil => rfl
  | cons p d ih =>
    by_cases h : p.1 = r <;> simp [dictGet, h, ih]

theorem foldl_loadLine_entries (pending : Store) (d : Store)
    (hvalid : ∀ p ∈ pending, validPath p.1 ∧ validChk p.2)
    (hfresh : ∀ p ∈ pending, dictGet d p.1 = none)
    (hnodup : (pending.map Prod.fst).Nodup) :
    (pending.map fun p => p.1 ++ '=' :: p.2).foldl loadLine d = d ++ pending := by
  induction pending generalizing d with
  | nil => simp
  | cons q rest ih =>
    have hq := hvalid q (List.mem_cons_self _ _)
    simp only [List.map_cons, List.nodup_cons] at hnodup
    rw [List.map_cons, List.foldl_cons, loadLine_entry d q.1 q.2 hq.1 hq.2,
      dictInsert_of_fresh d q.1 q.2 (hfresh q (List.mem_cons_self _ _))]
    have hfresh2 : ∀ p ∈ rest, dictGet (d ++ [(q.1, q.2)]) p.1 = none := by
      intro p hp
      rw [dictGet_append, hfresh p (List.mem_cons_of_mem _ hp)]
      have hne : q.1 ≠ p.1 := by
        intro hq1
        exact hnodup.1 (hq1 ▸ List.mem_map.mpr ⟨p, hp, rfl⟩)
      simp [dictGet, hne]
    rw [ih (d ++ [(q.1, q.2)])
      (fun p hp => hvalid p (List.mem_cons_of_mem _ hp)) hfresh2 hnodup.2]
    simp

/-- Writing a well-formed pending mapping with `save` and re-parsing the
file with `_load` yields exactly the original mapping. -/
theorem loadStore_saveContent (pending : Store)
    (hnodup : (pending.map Prod.fst).Nodup)
    (hvalid : ∀ p ∈ pending, validPath p.1 ∧ validChk p.2) :
    loadStore (saveContent pending) = pending := by
  unfold loadStore
  rw [splitLines_saveContent pending hvalid, List.foldl_append,
    foldl_loadLine_entries pending [] hvalid (fun p _ => rfl) hnodup]
  simp [loadLine_nil]

/-! ### Claim C10: store round-trip -/

/-- Claim C10: for every pending mapping (distinct paths) in which each path
is non-empty, contains no `=`, no line-break character and no leading or
trailing whitespace, and each fingerprint contains no line-break character
or surrounding whitespace, writing with `save` and re-parsing the written
file with `_load` yields exactly the original mapping. -/
theorem store_round_trip (pending : Store)
    (hnodup : (pending.map Prod.fst).Nodup)
    (hvalid : ∀ p ∈ pending, validPath p.1 ∧ validChk p.2) :
    loadStore (saveContent pending) = pending :=
  loadStore_saveContent pending hnodup hvalid

/-- Witness for C10 at a concrete two-entry mapping. -/
theorem store_round_trip_app :
    loadStore (saveContent [(['a'], ['1']), (['b', 'c'], ['2', '=', 'x'])]) =
      [(['a'], ['1']), (['b', 'c'], ['2', '=', 'x'])] :=
  store_round_trip [(['a'], ['1']), (['b', 'c'], ['2', '=', 'x'])]
    (by decide) (by decide)

/-! ### md5 hexdigests are storable fingerprints -/

/-- Characters produced by `hashlib.md5(...).hexdigest()`: the digits
`0`-`9` (0x30-0x39) and the letters `a`-`f` (0x61-0x66). -/
abbrev isHexChar (c : Char) : Bool :=
  (0x30 ≤ c.toNat && c.toNat ≤ 0x39) || (0x61 ≤ c.toNat && c.toNat ≤ 0x66)

/-- Shape of every value `ChecksumTracker.get_checksum` can return: a
32-character lowercase hex string. -/
abbrev isMd5Hex (s : Str) : Prop :=
  s.length = 32 ∧ ∀ c ∈ s, isHexChar c = true

theorem not_pySpace_of_hex (c : Char) (h : isHexChar c = true) :
    isPySpace c = false := by
  cases hps : isPySpace c
  · rfl
  · exfalso
    simp only [isHexChar, Bool.or_eq_true, Bool.and_eq_true,
      decide_eq_true_eq] at h
    simp only [isPySpace, Bool.or_eq_true, Bool.and_eq_true,
      decide_eq_true_eq] at hps
    omega

theorem getLastD_mem (s : Str) (d : Char) (h : s ≠ []) : s.getLastD d ∈ s := by
  rw [List.getLastD_eq_getLast?, List.getLast?_eq_getLast s h]
  exact List.getLast_mem h

theorem validChk_of_isMd5Hex (s : Str) (h : isMd5Hex s) : validChk s := by
  obtain ⟨hlen, hhex⟩ := h
  have hne : s ≠ [] := by
    intro hs
    rw [hs] at hlen
    simp at hlen
  refine ⟨?_, ?_, ?_, ?_⟩
  · intro hmem
    exact absurd (hhex _ hmem) (by decide)
  · intro hmem
    exact absurd (hhex _ hmem) (by decide)
  · cases s with
    | nil => exact absurd rfl hne
    | cons c rest =>
      rw [List.headD_cons]
      exact not_pySpace_of_hex c (hhex c (List.mem_cons_self _ _))
  · exact not_pySpace_of_hex _ (hhex _ (getLastD_mem s '=' hne))

theorem processFiles_final_get (fs : List FileEntry) (s s2 : PipeState)
    (f : FileEntry) (chk : Str)
    (h : processFiles s fs = .ok s2) (hf : f ∈ fs)
    (hd : f.digest = .ok chk)
    (hnodup : (fs.map FileEntry.rel).Nodup) :
    dictGet s2.1.new_checksums f.rel = some chk := by
  obtain ⟨pre, post, rfl⟩ := List.append_of_mem hf
  obtain ⟨s1, hs1, hrest⟩ := processFiles_append_ok pre (f :: post) s s2 h
  obtain ⟨sf, hsf, hpost⟩ := processFiles_step_ok f post s1 s2 hrest
  obtain ⟨chk2, hd2, hnew, _⟩ := processFile_inv s1 f sf hsf
  have hchk : chk2 = chk := by
    rw [hd] at hd2
    exact (Except.ok.inj hd2).symm
  subst hchk
  have hlast : f.rel ∉ post.map FileEntry.rel := by
    rw [List.map_append, List.map_cons] at hnodup
    have hsub : (f.rel :: post.map FileEntry.rel).Nodup :=
      (List.sublist_append_right _ _).nodup hnodup
    exact (List.nodup_cons.mp hsub).1
  rw [processFiles_get_preserved post sf s2 f.rel hlast hpost, hnew,
    has_changed_fst_new]
  exact dictGet_dictInsert_self _ _ _

/-! ### Claim C7: idempotence of the second run -/

/-- Counterexample to claim C7 as stated: a working tree containing a single
file whose relative path contains `=` (here `a=b`). The first run uploads
it and persists the line `a=b=9`; `_load` of the second run splits that
line at the first `=` into the key `a`, so the path `a=b` is absent from
`previous` and the unchanged file is uploaded again: the second run has
`uploaded = 1`, not `uploaded = 0` with all files skipped. -/
def treeWithEqPath : RunInput :=
  { configOk := true, gitSyncOk := true, storeFile := none,
    files := [⟨['a', '=', 'b'], .ok ['9'], .httpStatus 200⟩],
    saveCrash := none }

/-- Counterexample to claim C7 as stated: on the `=`-path tree above, the
second run over the unchanged tree re-uploads the file instead of
skipping it. -/
theorem second_run_reuploads_eq_path :
    (run (secondRun treeWithEqPath)).counters = some ⟨1, 0, 0⟩ ∧
    (run (secondRun treeWithEqPath)).counters ≠ some ⟨0, 1, 0⟩ := by
  refine ⟨?_, ?_⟩ <;> decide

/-- Claim C7 amended: running the Synchronizer twice in a row with the
tree's file contents unchanged between runs (and the first run's
persistence succeeding) yields on the second run `uploaded = 0` and every
visited file counted as skipped — provided every visited relative path is
representable in the store format: non-empty, containing no `=` and no
line-break character, without leading or trailing whitespace (fingerprints
are md5 hexdigests, hence always representable). -/
theorem second_run_all_skipped (inp : RunInput)
    (hc : inp.configOk = true) (hg : inp.gitSyncOk = true)
    (hcr : inp.saveCrash = none)
    (hnodup : (inp.files.map FileEntry.rel).Nodup)
    (hpath : ∀ f ∈ inp.files, validPath f.rel)
    (hdig : ∀ f ∈ inp.files, ∃ chk, f.digest = .ok chk ∧ isMd5Hex chk)
    (hup : ∀ f ∈ inp.files, f.upload ≠ UploadEvent.fsReadError) :
    (run (secondRun inp)).counters = some ⟨0, inp.files.length, 0⟩ := by
  obtain ⟨⟨t1, c1⟩, hs1⟩ := processFiles_total inp.files (initState inp)
    (fun f hf => (hdig f hf).imp fun chk h => h.1) hup
  have hrun1 : (run inp).storeFile = some (saveContent t1.new_checksums) := by
    simp [run, hc, hg, hs1, hcr]
  have hinitnew : (initState inp).1.new_checksums = [] := rfl
  have hentries : ∀ p ∈ t1.new_checksums, validPath p.1 ∧ validChk p.2 := by
    intro p hp
    rcases processFiles_entries inp.files _ _ hs1 p hp with hin | ⟨f, hf, hrel, hdigp⟩
    · rw [hinitnew] at hin
      simp at hin
    · obtain ⟨chk, hdchk, hhex⟩ := hdig f hf
      have hchk : p.2 = chk := by
        rw [hdchk] at hdigp
        exact (Except.ok.inj hdigp).symm
    
      exact ⟨hrel ▸ hpath f hf, hchk ▸ validChk_of_isMd5Hex chk hhex⟩
  have hkeys : (t1.new_checksums.map Prod.fst).Nodup := by
    refine processFiles_keys_nodup inp.files _ _ hs1 ?_
    rw [hinitnew]
    simp
  have hround : loadStore (saveContent t1.new_checksums) = t1.new_checksums :=
    loadStore_saveContent t1.new_checksums hkeys hentries
  have hinit2 : initState (secondRun inp) =
      (⟨t1.new_checksums, []⟩, ⟨0, 0, 0⟩) := by
    simp only [initState, secondRun, hrun1, ChecksumTracker.load, hround]
  have hskip : ∀ f ∈ inp.files, ∃ chk, f.digest = .ok chk ∧
      dictGet (⟨t1.new_checksums, []⟩ : ChecksumTracker).old_checksums f.rel
        = some chk := by
    intro f hf
    obtain ⟨chk, hdchk, _⟩ := hdig f hf
    exact ⟨chk, hdchk,
      processFiles_final_get inp.files _ _ f chk hs1 hf hdchk hnodup⟩
  obtain ⟨t2, ht2⟩ :=
    processFiles_all_unchanged inp.files ⟨t1.new_checksums, []⟩ ⟨0, 0, 0⟩ hskip
  have hfiles2 : (secondRun inp).files = inp.files := rfl
  have hcfg2 : (secondRun inp).configOk = true := hc
  have hgit2 : (secondRun inp).gitSyncOk = true := hg
  have hcr2 : (secondRun inp).saveCrash = none := hcr
  rw [show run (secondRun inp) = ⟨if (Counters.mk 0 (0 + inp.files.length) 0).failed > 0 then 1 else 0,
      some (saveContent t2.new_checksums), some ⟨0, 0 + inp.files.length, 0⟩⟩ from by
    simp only [run, hcfg2, hgit2, hfiles2, hinit2, ht2, hcr2, if_true]]
  simp

def unchangedTree : RunInput :=
  { configOk := true, gitSyncOk := true, storeFile := none,
    files := [⟨['a'], .ok (List.replicate 32 'a'), .httpStatus 200⟩],
    saveCrash := none }

/-- Witness for the amended C7: a one-file tree with a storable path and an
md5-shaped fingerprint is fully skipped on the second run. -/
theorem second_run_all_skipped_app :
    (run (secondRun unchangedTree)).counters = some ⟨0, 1, 0⟩ :=
  second_run_all_skipped unchangedTree rfl rfl rfl (by decide) (by decide)
    (by
      intro f hf
      rw [show unchangedTree.files =
        [⟨['a'], .ok (List.replicate 32 'a'), .httpStatus 200⟩] from rfl,
        List.mem_singleton] at hf
      subst hf
      exact ⟨List.replicate 32 'a', rfl, by decide⟩)
    (by decide)
